import Mathlib

/-!
Shallow embedding of the arXiv-agent scoring / summarization / retry core
(src/scoring/*.py, src/summarizer/llm_summarizer.py, src/llm_client/retry.py).

Numbers: Python floats are modelled as exact rationals (ℚ); Python `round(x, 1)`
is modelled as round-half-to-even on tenths (`pyRound10`).  Python strings are
Lean `String`s; `str.lower()` is `strLower`, `needle in hay` is `strContains`.
-/

/-- `leadMatch pat l` : does `l` start with `pat`? (character-wise). -/
def leadMatch : List Char → List Char → Bool
  | [], _ => true
  | _ :: _, [] => false
  | p :: ps, c :: cs => p == c && leadMatch ps cs

/-- `listContains pat l` : does `pat` occur as a contiguous run inside `l`?
Models Python's substring test `pat in l`. -/
def listContains (pat : List Char) : List Char → Bool
  | [] => leadMatch pat []
  | c :: cs => leadMatch pat (c :: cs) || listContains pat cs

/-- Python `needle in hay` on strings. -/
def strContains (hay needle : String) : Bool :=
  listContains needle.toList hay.toList

/-- Python `s.lower()` (ASCII letters, which is all the source's data uses). -/
def strLower (s : String) : String := s.map Char.toLower

/-- Floor-based round-half-to-even of a rational to an integer
(the rounding Python's `round` specifies). -/
def roundHalfEven (x : ℚ) : ℤ :=
  let n := ⌊x⌋
  if x - n < 1/2 then n
  else if (1 : ℚ)/2 < x - n then n + 1
  else if n % 2 = 0 then n else n + 1

/-- Python `round(x, 1)` on exact rationals. -/
def pyRound10 (x : ℚ) : ℚ := (roundHalfEven (10 * x) : ℚ) / 10

/-- Insert for the stable sort below: `a` goes in front of the first element
`b` with `le a b`. -/
def insertLe (le : α → α → Bool) (a : α) : List α → List α
  | [] => [a]
  | b :: bs => if le a b then a :: b :: bs else b :: insertLe le a bs

/-- Stable sort by a total boolean preorder `le` (insertion sort).  Python's
`list.sort` is specified to be exactly the stable sort for its key order, so
this models `list.sort(key=..., reverse=...)` with `le` the induced order. -/
def sortLe (le : α → α → Bool) : List α → List α
  | [] => []
  | a :: as => insertLe le a (sortLe le as)

/-- The in-memory paper record (a Python dict in the source; the fields below
are the keys the scored/summarized core reads).  `published_age_days` models
`(datetime.now() - parsed published date).days`, `none` standing for a missing
or unparseable `published` field.  `s2_author_affiliations` models
`[a.get("affiliations", []) for a in paper.get("s2_authors", [])]`. -/
structure Paper where
  arxiv_id : Option String := none
  title : String := ""
  summary : String := ""
  published_age_days : Option Int := none
  s2_citation_count : Int := 0
  s2_influential_citation_count : Int := 0
  s2_venue : String := ""
  cr_published : Bool := false
  s2_author_affiliations : List (List String) := []
  quality_score : Option ℚ := none
deriving DecidableEq

/-- A scorer as the pipeline sees it: a weight plus a scoring function
(`BaseScorer` in src/scoring/base_score.py). -/
structure Scorer where
  weight : ℚ
  score : Paper → ℚ

/-- src/scoring/citation_score.py, `CitationScorer.score`: step function of the
raw citation count (70% budget). -/
def citeStep (citations : Int) : ℚ :=
  if citations ≥ 100 then 0.7
  else if citations ≥ 50 then 0.6
  else if citations ≥ 20 then 0.5
  else if citations ≥ 10 then 0.4
  else if citations ≥ 5 then 0.25
  else if citations ≥ 1 then 0.1
  else 0

/-- src/scoring/citation_score.py: step function of the influential-citation
count (30% budget). -/
def infStep (influential : Int) : ℚ :=
  if influential ≥ 10 then 0.3
  else if influential ≥ 5 then 0.2
  else if influential ≥ 1 then 0.1
  else 0

/-- `CitationScorer.score` (src/scoring/citation_score.py). -/
def citationScore (p : Paper) : ℚ :=
  min (citeStep p.s2_citation_count + infStep p.s2_influential_citation_count) 1

def CitationScorer (weight : ℚ := 30) : Scorer := ⟨weight, citationScore⟩

/-- `KNOWN_AFFILIATIONS` (src/scoring/author_score.py). -/
def KNOWN_AFFILIATIONS : List String :=
  ["google", "deepmind", "openai", "meta", "microsoft",
   "apple", "nvidia", "amazon", "bytedance", "tencent",
   "alibaba", "baidu", "anthropic", "mistral",
   "stanford", "mit", "berkeley", "cmu", "harvard",
   "oxford", "cambridge", "tsinghua", "peking", "princeton",
   "eth zurich", "mila", "inria", "caltech", "columbia",
   "university of washington", "cornell"]

/-- The `affiliations_text` accumulator of `AuthorScorer.score`
(src/scoring/author_score.py). -/
def affiliationsText (p : Paper) : String :=
  p.s2_author_affiliations.foldl
    (fun acc affs => affs.foldl (fun a aff => a ++ " " ++ strLower aff) acc) ""

/-- `AuthorScorer.score` (src/scoring/author_score.py): 1.0 on the first known
institution hit, else 0. -/
def authorScore (known : List String) (p : Paper) : ℚ :=
  let t := affiliationsText p
  if t = "" then 0
  else if known.any (fun org => strContains t org) then 1 else 0

def AuthorScorer (weight : ℚ := 20) (known : List String := KNOWN_AFFILIATIONS) :
    Scorer := ⟨weight, authorScore known⟩

/-- `TOP_VENUES` (src/scoring/base_score.py). -/
def TOP_VENUES : List String :=
  ["neurips", "nips", "icml", "iclr", "aaai", "ijcai",
   "cvpr", "iccv", "eccv",
   "acl", "emnlp", "naacl", "coling",
   "kdd", "www", "sigir", "wsdm",
   "nature", "science", "jmlr", "pami", "tpami",
   "transactions on neural networks"]

/-- `VenueScorer.score` (src/scoring/base_score.py): 0.6 for a top-venue
fragment hit plus 0.4 for being formally published, capped at 1. -/
def venueScore (p : Paper) : ℚ :=
  let venue := strLower p.s2_venue
  let s : ℚ :=
    if venue ≠ "" ∧ TOP_VENUES.any (fun t => strContains venue t) then 0.6 else 0
  let s := s + (if p.cr_published then 0.4 else 0)
  min s 1

def VenueScorer (weight : ℚ := 20) : Scorer := ⟨weight, venueScore⟩

/-- `FreshnessScorer.score` (src/scoring/freshness_score.py): step function of
the age in days. -/
def freshnessScore (decay_days : Int) (p : Paper) : ℚ :=
  match p.published_age_days with
  | none => 0
  | some age =>
      if age ≤ 1 then 1
      else if age ≤ 3 then 0.8
      else if age ≤ 7 then 0.6
      else if age ≤ 14 then 0.4
      else if age ≤ decay_days then 0.2
      else 0

def FreshnessScorer (weight : ℚ := 15) (decay_days : Int := 30) : Scorer :=
  ⟨weight, freshnessScore decay_days⟩

/-- `KeywordScorer.score` (src/scoring/base_score.py): tiered score of the
number of configured keywords occurring in title + abstract. -/
def keywordScore (keywords : List String) (p : Paper) : ℚ :=
  if keywords = [] then 0
  else
    let text := strLower (p.title ++ " " ++ p.summary)
    let matched := keywords.countP (fun kw => strContains text (strLower kw))
    if matched ≥ 3 then 1
    else if matched ≥ 2 then 0.67
    else if matched ≥ 1 then 0.33
    else 0

def KeywordScorer (keywords : List String := []) (weight : ℚ := 15) : Scorer :=
  ⟨weight, keywordScore keywords⟩

/-- `sum(s.weight for s in self.scorers)` in `ScoringPipeline.score_paper`. -/
def totalWeight (scorers : List Scorer) : ℚ :=
  (scorers.map fun s => s.weight).sum

/-- `sum(s.score(paper) * s.weight for s in self.scorers)`. -/
def weightedSum (scorers : List Scorer) (p : Paper) : ℚ :=
  (scorers.map fun s => s.score p * s.weight).sum

/-- `ScoringPipeline.score_paper` (src/scoring/base_score.py): returns the
composite 0–100 score and the paper with `quality_score` written.
`total_weight = ... or 1` : a zero weight sum is replaced by 1. -/
def score_paper (scorers : List Scorer) (p : Paper) : ℚ × Paper :=
  let tw := totalWeight scorers
  let tw := if tw = 0 then 1 else tw
  let v := pyRound10 (weightedSum scorers p / tw * 100)
  (v, { p with quality_score := some v })

/-- `ScoringPipeline.rank_papers`: score every paper, then stable-sort by
`quality_score` descending (Python `list.sort(key=..., reverse=True)`). -/
def rank_papers (scorers : List Scorer) (papers : List Paper) : List Paper :=
  let scored := papers.map (fun p => (score_paper scorers p).2)
  sortLe (fun a b => decide (b.quality_score.getD 0 ≤ a.quality_score.getD 0)) scored

/-! ### Key-sentence extractor (src/summarizer/llm_summarizer.py) -/

/-- Is `c` one of the sentence-final punctuation marks of the split regex
`(?<=[.!?])\s+`? -/
def isPunctChar (c : Char) : Bool := c == '.' || c == '!' || c == '?'

/-- Head of the reversed accumulator, i.e. the previously consumed character. -/
def headPunct : List Char → Bool
  | [] => false
  | c :: _ => isPunctChar c

/-- One left-to-right pass of `re.split(r'(?<=[.!?])\s+', text)`:
`mode = true` means we are inside a separator whitespace run (which the regex
consumes greedily); `acc` is the current piece, reversed. -/
def splitGo (mode : Bool) (acc : List Char) : List Char → List (List Char)
  | [] => [acc.reverse]
  | c :: rest =>
      if mode then
        if c.isWhitespace then splitGo true acc rest
        else splitGo false [c] rest
      else if c.isWhitespace && headPunct acc then
        acc.reverse :: splitGo true [] rest
      else splitGo false (c :: acc) rest

/-- Python `str.strip()` at the character-list level. -/
def trimChars (l : List Char) : List Char :=
  ((l.dropWhile Char.isWhitespace).reverse.dropWhile Char.isWhitespace).reverse

/-- Python `str.replace(pat, rep)` (leftmost, non-overlapping); `skip > 0`
means we are still consuming the tail of a match already emitted. -/
def replaceGo (p r : List Char) (skip : ℕ) : List Char → List Char
  | [] => []
  | c :: cs =>
      match skip with
      | k + 1 => replaceGo p r k cs
      | 0 =>
          if leadMatch p (c :: cs) && !p.isEmpty then
            r ++ replaceGo p r (p.length - 1) cs
          else c :: replaceGo p r 0 cs

def pyReplace (s pat rep : String) : String :=
  ⟨replaceGo pat.toList rep.toList 0 s.toList⟩

/-- The abbreviation pre-normalization of `extract_key_sentences`. -/
def normalizeAbbrev (s : String) : String :=
  pyReplace (pyReplace (pyReplace s "et al." "et al") "i.e." "ie") "e.g." "eg"

/-- `re.split(r'(?<=[.!?])\s+', text.strip())`. -/
def sentenceSplit (text : String) : List String :=
  (splitGo false [] (trimChars text.toList)).map fun l => ⟨l⟩

def METHOD_KW : List String :=
  ["propose", "present", "introduce", "develop", "design",
   "method", "approach", "framework", "architecture", "model",
   "algorithm", "technique", "mechanism", "strategy", "pipeline",
   "leverage", "employ", "utilize", "formulate", "novel"]

def RESULT_KW : List String :=
  ["experiment", "result", "evaluation", "benchmark", "dataset",
   "outperform", "improve", "achieve", "surpass", "state-of-the-art",
   "sota", "accuracy", "performance", "f1", "bleu", "rouge",
   "demonstrate", "show", "significantly", "superior", "comparable",
   "reduce", "increase", "gain"]

def PROBLEM_KW : List String :=
  ["challenge", "problem", "limitation", "issue", "gap",
   "lack", "suffer", "difficult", "bottleneck", "drawback",
   "however", "although", "despite", "remain", "existing",
   "struggle", "fail", "inadequate"]

/-- `_ALL_KW = _METHOD_KW | _RESULT_KW | _PROBLEM_KW`; the three vocabularies
are pairwise disjoint in the source, so list concatenation has exactly the
members of the Python set union. -/
def ALL_KW : List String := METHOD_KW ++ RESULT_KW ++ PROBLEM_KW

/-- Keyword hits of a sentence plus the positional bonus (+2 first sentence,
else +1 last sentence). -/
def sentHits (total i : ℕ) (sent : String) : ℕ :=
  let lower := strLower sent
  (ALL_KW.countP fun kw => strContains lower kw)
    + (if i = 0 then 2 else if i = total - 1 then 1 else 0)

/-- `" ".join` at the character-list level. -/
def joinChars : List (List Char) → List Char
  | [] => []
  | [x] => x
  | x :: y :: rest => x ++ ' ' :: joinChars (y :: rest)

/-- `" ".join(strings)`. -/
def joinSpace (l : List String) : String := ⟨joinChars (l.map String.toList)⟩

/-- The `scored` list of `extract_key_sentences`: (index, hits, sentence). -/
def scoredOf (sentences : List String) : List (ℕ × ℕ × String) :=
  sentences.enum.map fun x => (x.1, sentHits sentences.length x.1 x.2, x.2)

/-- The `top` list of `extract_key_sentences`: stable-sort by hits descending
(`scored.sort(key=..., reverse=True)`), take the best `max_sentences`, restore
original order (`sorted(..., key=index)`). -/
def topOf (sentences : List String) (max_sentences : ℕ) : List (ℕ × ℕ × String) :=
  sortLe (fun a b => decide (a.1 ≤ b.1))
    ((sortLe (fun a b => decide (b.2.1 ≤ a.2.1)) (scoredOf sentences)).take max_sentences)

/-- `extract_key_sentences` (src/summarizer/llm_summarizer.py): keyword
matching + positional weighting, top `max_sentences` sentences restored to
original order.  Both Python sorts are stable, modelled by `sortLe`; the
final `or abstract` is the emptiness test on the joined string. -/
def extract_key_sentences (abstract : String) (max_sentences : ℕ := 6) : String :=
  let sentences := sentenceSplit (normalizeAbbrev abstract)
  if sentences.length ≤ max_sentences then abstract
  else
    let joined := joinSpace ((topOf sentences max_sentences).map fun x => x.2.2)
    if joined = "" then abstract else joined

/-! ### PaperSummarizer (src/summarizer/llm_summarizer.py)

The duck-typed LLM client is modelled as an optional `chat` capability
`(prompt, system) → reply-or-error`; a raised exception (including the
`AttributeError` from a `None` client) is the `.error` case.  The summarizer's
consecutive-failure counter `_llm_failures` is threaded explicitly. -/

structure LLMStub where
  chat : String → String → Except String String

def chatOf (llm : Option LLMStub) (prompt system : String) : Except String String :=
  match llm with
  | none => Except.error "AttributeError: NoneType object has no attribute chat"
  | some l => l.chat prompt system

def EXTRACT_SYSTEM : String :=
  "You are a precise academic information extractor. Output ONLY the requested structured fields, nothing else."

/-- `EXTRACT_PROMPT.format(key_text=..., title=...)` (src/summarizer/prompt_templates.py). -/
def EXTRACT_PROMPT_fmt (key_text title : String) : String :=
  "From the following key sentences of a research paper, extract exactly 3 fields.\nWrite each as ONE concise sentence (max 20 words). Be specific, not vague.\n\nKEY SENTENCES:\n"
  ++ key_text
  ++ "\n\nPAPER TITLE (for context):\n"
  ++ title
  ++ "\n\nOutput format (use exactly these labels):\n- Problem: <what gap/challenge the paper addresses>\n- Method: <core technical approach or framework>\n- Result: <main quantitative or qualitative outcome>"

def COMPRESS_SYSTEM_ZH : String := "你是学术论文压缩专家。你必须用自己的语言重写，严禁照搬原文措辞。"

/-- `COMPRESS_PROMPT_ZH.format(structured=..., title=...)` (rule text elided to
its slot structure, which is all the summarizer's control flow depends on). -/
def COMPRESS_PROMPT_ZH_fmt (structured title : String) : String :=
  "将以下论文结构化信息改写为 3 条中文要点。\n\n结构化信息：\n" ++ structured ++ "\n\n论文标题：\n" ++ title

def COMPRESS_SYSTEM_EN : String :=
  "You are an academic paper compression expert. Rephrase everything in your own words — never copy original phrasing."

def COMPRESS_PROMPT_EN_fmt (structured title : String) : String :=
  "Rewrite the following structured paper info into 3 concise bullet points.\n\nStructured info:\n" ++ structured ++ "\n\nPaper title:\n" ++ title

/-- `PaperSummarizer.structured_extract`: returns the stage-2 text and the
updated `_llm_failures` counter (reset on success, +1 on failure, with the
recognizable fallback marker string). -/
def structured_extract (llm : Option LLMStub) (fails : ℕ) (key_text title : String) :
    String × ℕ :=
  match chatOf llm (EXTRACT_PROMPT_fmt key_text title) EXTRACT_SYSTEM with
  | Except.ok r => (r.trim, 0)
  | Except.error e =>
      ("- Problem: extraction failed\n- Method: " ++ title ++ "\n- Result: see paper (" ++ e ++ ")",
       fails + 1)

/-- `PaperSummarizer.compress_summary`. -/
def compress_summary (llm : Option LLMStub) (language : String) (fails : ℕ)
    (structured title : String) : String × ℕ :=
  let ps : String × String :=
    if language = "zh" then (COMPRESS_PROMPT_ZH_fmt structured title, COMPRESS_SYSTEM_ZH)
    else (COMPRESS_PROMPT_EN_fmt structured title, COMPRESS_SYSTEM_EN)
  match chatOf llm ps.1 ps.2 with
  | Except.ok r => (r.trim, 0)
  | Except.error e => ("• 摘要压缩失败: " ++ e, fails + 1)

/-- `PaperSummarizer._rule_based_summary`: single bullet from the 3-sentence
key extraction, truncated to 250 characters with an ellipsis marker. -/
def rule_based_summary (p : Paper) : String :=
  if p.summary = "" then "• 无摘要信息"
  else
    let key := extract_key_sentences p.summary 3
    let key := if key.length > 250 then key.take 247 ++ "..." else key
    "• " ++ key

/-- `PaperSummarizer.summarize`: full three-stage summary with rule-based
degradation; returns the summary text and the updated failure counter. -/
def summarize (llm : Option LLMStub) (language : String) (fails : ℕ) (p : Paper) :
    String × ℕ :=
  if p.summary = "" then ("• 无摘要信息", fails)
  else if fails ≥ 6 then (rule_based_summary p, fails)
  else
    let key_text := extract_key_sentences p.summary 6
    let se := structured_extract llm fails key_text p.title
    if strContains se.1 "extraction failed" then (rule_based_summary p, se.2)
    else
      let cs := compress_summary llm language se.2 se.1 p.title
      if strContains cs.1 "摘要压缩失败" then (rule_based_summary p, cs.2)
      else (cs.1, cs.2)

/-- `results[arxiv_id] = v` on a Python dict modelled as an insertion-ordered
association list: overwrite in place if the key exists, else append. -/
def dictInsert (m : List (String × String)) (k v : String) : List (String × String) :=
  if (m.lookup k).isSome then
    m.map fun kv => if kv.1 = k then (k, v) else kv
  else m ++ [(k, v)]

/-- `paper.get("arxiv_id", f"unknown_i")` for the 1-based position `i`. -/
def assignedId (i : ℕ) (p : Paper) : String :=
  p.arxiv_id.getD ("unknown_" ++ toString i)

/-- The loop body of `PaperSummarizer.summarize_batch` (the prints and the
inter-paper `time.sleep` are I/O only and have no effect on the result). -/
def summarizeBatchGo (llm : Option LLMStub) (language : String) :
    ℕ → ℕ → List Paper → List (String × String) → List (String × String) × ℕ
  | fails, _, [], acc => (acc, fails)
  | fails, i, p :: rest, acc =>
      let aid := assignedId i p
      if fails ≥ 6 then
        summarizeBatchGo llm language fails (i + 1) rest
          (dictInsert acc aid (rule_based_summary p))
      else
        let s := summarize llm language fails p
        summarizeBatchGo llm language s.2 (i + 1) rest (dictInsert acc aid s.1)

/-- `PaperSummarizer.summarize_batch`: the result mapping plus the final
failure counter. -/
def summarize_batch (llm : Option LLMStub) (language : String) (fails : ℕ)
    (papers : List Paper) : List (String × String) × ℕ :=
  summarizeBatchGo llm language fails 1 papers []

/-- The ids `summarize_batch` assigns, in input order. -/
def assignedIdsGo : ℕ → List Paper → List String
  | _, [] => []
  | i, p :: rest => assignedId i p :: assignedIdsGo (i + 1) rest

def assignedIds (papers : List Paper) : List String := assignedIdsGo 1 papers

/-! ### CircuitBreaker and call_with_retry (src/llm_client/retry.py)

`time.time()` is passed explicitly as a rational `now`; the state-reading
property getter mutates the stored state, so observation returns the observed
state together with the updated breaker. -/

inductive CBState where
  | closed
  | opened
  | halfOpen
deriving DecidableEq

structure CircuitBreaker where
  failure_threshold : ℕ := 4
  cooldown : ℚ := 60
  failures : ℕ := 0
  last_failure_time : ℚ := 0
  stored_state : CBState := CBState.closed
deriving DecidableEq

/-- The `state` property getter: an `OPEN` breaker whose cooldown has elapsed
flips to `HALF_OPEN` on observation. -/
def CircuitBreaker.observe (cb : CircuitBreaker) (now : ℚ) : CBState × CircuitBreaker :=
  if cb.stored_state = CBState.opened ∧ now - cb.last_failure_time ≥ cb.cooldown then
    (CBState.halfOpen, { cb with stored_state := CBState.halfOpen })
  else (cb.stored_state, cb)

/-- `allow_request`: the observed state is `CLOSED` or `HALF_OPEN`. -/
def CircuitBreaker.allow_request (cb : CircuitBreaker) (now : ℚ) : Bool × CircuitBreaker :=
  let sc := cb.observe now
  (sc.1 == CBState.closed || sc.1 == CBState.halfOpen, sc.2)

def CircuitBreaker.record_success (cb : CircuitBreaker) : CircuitBreaker :=
  { cb with failures := 0, stored_state := CBState.closed }

def CircuitBreaker.record_failure (cb : CircuitBreaker) (now : ℚ) : CircuitBreaker :=
  let f := cb.failures + 1
  { cb with
    failures := f
    last_failure_time := now
    stored_state := if f ≥ cb.failure_threshold then CBState.opened else cb.stored_state }

def CircuitBreaker.reset (cb : CircuitBreaker) : CircuitBreaker :=
  { cb with failures := 0, stored_state := CBState.closed }

/-- The breakers reachable from a fresh `CircuitBreaker(...)` by any sequence
of `record_failure` / `record_success` / `reset` / state observations. -/
inductive CBReach : CircuitBreaker → Prop where
  | init (thr : ℕ) (cd : ℚ) :
      CBReach { failure_threshold := thr, cooldown := cd }
  | fail {cb : CircuitBreaker} (t : ℚ) : CBReach cb → CBReach (cb.record_failure t)
  | succ {cb : CircuitBreaker} : CBReach cb → CBReach cb.record_success
  | res {cb : CircuitBreaker} : CBReach cb → CBReach cb.reset
  | obs {cb : CircuitBreaker} (t : ℚ) : CBReach cb → CBReach (cb.observe t).2

/-- Error taxonomy of src/llm_client/errors.py (the locally synthesized
`LLMCircuitOpenError` is a `RetryResult`, not an operation error). -/
inductive ErrKind where
  | auth
  | badRequest
  | rateLimit
  | server
  | connection
  | unknown
deriving DecidableEq

structure LLMErr where
  kind : ErrKind
  msg : String := ""
deriving DecidableEq

inductive RetryResult (R : Type) where
  | ok (r : R)
  | circuitOpen
  | err (e : LLMErr)
  | noErr
deriving DecidableEq

/-- Observable outcome of one `call_with_retry` run: the raised-or-returned
result, the number of attempts (`fn` invocations), the backoff sleeps issued,
how many times `circuit.record_failure()` ran, and the final breaker. -/
structure RetryTrace (R : Type) where
  result : RetryResult R
  attempts : ℕ
  sleeps : List ℚ
  failures_recorded : ℕ
  circuit : Option CircuitBreaker
deriving DecidableEq

def circFail (circ : Option CircuitBreaker) (now : ℚ) : Option CircuitBreaker :=
  circ.map fun cb => cb.record_failure now

def circCount (circ : Option CircuitBreaker) : ℕ := if circ.isSome then 1 else 0

/-- The `for attempt in range(retries + 1)` loop of `call_with_retry`.
`remaining` counts the iterations left (`retries + 1 - attempt`); the
operation is modelled as `fn : attempt ↦ outcome`; `last` is `last_err`.
Exiting the loop raises `last_err` (`noErr` models the unreachable
`raise None`).  The clock advances by each sleep. -/
def retryLoop (fn : ℕ → Except LLMErr R) (retries : ℕ) :
    ℕ → ℕ → Option LLMErr → Option CircuitBreaker → ℚ → List ℚ → ℕ → RetryTrace R
  | 0, attempt, last, circ, _, sleeps, nf =>
      ⟨match last with
       | some e => RetryResult.err e
       | none => RetryResult.noErr,
       attempt, sleeps, nf, circ⟩
  | remaining + 1, attempt, _, circ, now, sleeps, nf =>
      match fn attempt with
      | Except.ok r =>
          ⟨RetryResult.ok r, attempt + 1, sleeps, nf, circ.map (·.record_success)⟩
      | Except.error e =>
          match e.kind with
          | ErrKind.auth | ErrKind.badRequest =>
              ⟨RetryResult.err e, attempt + 1, sleeps, nf + circCount circ, circFail circ now⟩
          | ErrKind.rateLimit =>
              if attempt < retries then
                let w : ℚ := 5 * (attempt + 1)
                retryLoop fn retries remaining (attempt + 1) (some e) circ (now + w)
                  (sleeps ++ [w]) nf
              else
                retryLoop fn retries remaining (attempt + 1) (some e) (circFail circ now)
                  now sleeps (nf + circCount circ)
          | ErrKind.server =>
              if attempt < retries then
                let w : ℚ := 2 * (attempt + 1)
                retryLoop fn retries remaining (attempt + 1) (some e) circ (now + w)
                  (sleeps ++ [w]) nf
              else
                retryLoop fn retries remaining (attempt + 1) (some e) (circFail circ now)
                  now sleeps (nf + circCount circ)
          | ErrKind.connection =>
              if attempt < retries then
                let w : ℚ := 5 * (attempt + 1)
                retryLoop fn retries remaining (attempt + 1) (some e) circ (now + w)
                  (sleeps ++ [w]) nf
              else
                retryLoop fn retries remaining (attempt + 1) (some e) (circFail circ now)
                  now sleeps (nf + circCount circ)
          | ErrKind.unknown =>
              if attempt < retries then
                let w : ℚ := 3 * (attempt + 1)
                retryLoop fn retries remaining (attempt + 1) (some e) (circFail circ now)
                  (now + w) (sleeps ++ [w]) (nf + circCount circ)
              else
                ⟨RetryResult.err e, attempt + 1, sleeps, nf + circCount circ, circFail circ now⟩

/-- `call_with_retry(fn, retries, circuit)` at clock `now`: refuse on an open
breaker, otherwise run the retry loop. -/
def call_with_retry (fn : ℕ → Except LLMErr R) (retries : ℕ := 3)
    (circ : Option CircuitBreaker := none) (now : ℚ := 0) : RetryTrace R :=
  match circ with
  | some cb =>
      let ac := cb.allow_request now
      if ac.1 then retryLoop fn retries (retries + 1) 0 none (some ac.2) now [] 0
      else ⟨RetryResult.circuitOpen, 0, [], 0, some ac.2⟩
  | none => retryLoop fn retries (retries + 1) 0 none none now [] 0

/-! ### Concrete instances (default policy and the spec's §8 scenario) -/

/-- `Settings.bonus_keywords` (src/config/settings.py). -/
def BONUS_KEYWORDS : List String :=
  ["LLM", "large language model", "GPT", "reasoning", "chain-of-thought",
   "multimodal", "vision-language", "agent", "tool use",
   "quantization", "efficient", "diffusion", "transformer"]

/-- The default pipeline of src/agents/aggregator.py: weights 30/20/20/15/15. -/
def defaultScorers : List Scorer :=
  [CitationScorer 30, AuthorScorer 20, VenueScorer 20,
   FreshnessScorer 15 30, KeywordScorer BONUS_KEYWORDS 15]

/-- Scenario paper A: 100 citations, 10 influential, NeurIPS, formally
published, 1 day old, three configured keyword matches, Google affiliation. -/
def paperA : Paper :=
  { arxiv_id := some "A", title := "Diffusion transformer reasoning",
    published_age_days := some 1,
    s2_citation_count := 100, s2_influential_citation_count := 10,
    s2_venue := "NeurIPS", cr_published := true,
    s2_author_affiliations := [["Google"]] }

/-- Scenario paper B: all fields zero/empty/non-matching, 40 days old. -/
def paperB : Paper :=
  { arxiv_id := some "B", published_age_days := some 40 }

/-- Scenario paper C: 10 citations, ICML, 2 days old, one keyword match
("efficient"), MIT affiliation. -/
def paperC : Paper :=
  { arxiv_id := some "C", title := "An efficient method",
    published_age_days := some 2,
    s2_citation_count := 10, s2_venue := "ICML",
    s2_author_affiliations := [["MIT"]] }

/-- A paper with an empty abstract, for the batch-contract analysis. -/
def emptyAbstractPaper : Paper := { arxiv_id := some "x" }

/-- A remote-call capability that always fails. -/
def failingLLM : LLMStub := ⟨fun _ _ => Except.error "boom"⟩

/-- A paper with a non-empty abstract, for the fallback-coverage analysis. -/
def absPaper : Paper :=
  { arxiv_id := some "y", title := "T",
    summary := "We propose a method. It works." }

/-- The entries a batch run produces when every paper degrades to the
rule-based fallback, in input order with 1-based default ids. -/
def ruleEntriesGo : ℕ → List Paper → List (String × String)
  | _, [] => []
  | i, p :: rest => (assignedId i p, rule_based_summary p) :: ruleEntriesGo (i + 1) rest

/-- A reachable `HALF_OPEN` breaker for the circuit-breaker analysis:
threshold 1, cooldown 0; one failure at t=0, then observed at t=0. -/
def cbHalfOpenW : CircuitBreaker :=
  ((({ failure_threshold := 1, cooldown := 0 } : CircuitBreaker).record_failure 0).observe 0).2

/-! ## Theorems -/

/-- Claim C1: for every paper and every scoring policy with positive total
weight, `score_paper` returns `round(100 · Σ(signal.score·weight) / Σ weight, 1)`
and writes exactly that value into the paper's `quality_score` field. -/
theorem C1_scorePaper_formula (scorers : List Scorer) (p : Paper)
    (h : 0 < totalWeight scorers) :
    score_paper scorers p =
      (pyRound10 (100 * weightedSum scorers p / totalWeight scorers),
       { p with quality_score := some (pyRound10 (100 * weightedSum scorers p / totalWeight scorers)) }) := by
  have hne : totalWeight scorers ≠ 0 := ne_of_gt h
  have harg : weightedSum scorers p / totalWeight scorers * 100
      = 100 * weightedSum scorers p / totalWeight scorers := by ring
  simp only [score_paper, if_neg hne, harg]

/-- Witness for C1 at a concrete one-scorer policy and the default record. -/
theorem C1_scorePaper_formula_witness :
    score_paper [CitationScorer 30] {} =
      (pyRound10 (100 * weightedSum [CitationScorer 30] {} / totalWeight [CitationScorer 30]),
       { quality_score := some (pyRound10 (100 * weightedSum [CitationScorer 30] {} / totalWeight [CitationScorer 30])) }) :=
  C1_scorePaper_formula _ _ (by norm_num [totalWeight, CitationScorer])

/-- Claim C10: with an empty policy, or with every signal weight equal to 0,
`score_paper` completes (the zero total weight is replaced by 1, so there is
no division by zero), returns 0.0 and writes 0.0 into `quality_score`. -/
theorem C10_scorePaper_zeroTotalWeight (scorers : List Scorer) (p : Paper)
    (h : scorers = [] ∨ ∀ s ∈ scorers, s.weight = 0) :
    score_paper scorers p = (0, { p with quality_score := some 0 }) := by
  have hw : ∀ s ∈ scorers, s.weight = 0 := by
    rcases h with h | h
    · subst h; intro s hs; cases hs
    · exact h
  have htw : totalWeight scorers = 0 := by
    unfold totalWeight
    apply List.sum_eq_zero
    intro x hx
    obtain ⟨s, hs, rfl⟩ := List.mem_map.mp hx
    exact hw s hs
  have hws : weightedSum scorers p = 0 := by
    unfold weightedSum
    apply List.sum_eq_zero
    intro x hx
    obtain ⟨s, hs, rfl⟩ := List.mem_map.mp hx
    rw [hw s hs, mul_zero]
  simp only [score_paper, htw, hws]
  norm_num [pyRound10, roundHalfEven]

/-- Witness for C10: the empty policy on the default record. -/
theorem C10_scorePaper_zeroTotalWeight_witness :
    score_paper [] {} = (0, { quality_score := some 0 }) :=
  C10_scorePaper_zeroTotalWeight [] {} (Or.inl rfl)

set_option maxRecDepth 40000 in
/-- Claim C6: with the default 30/20/20/15/15 policy and the spec's scenario
papers, `rank_papers [A, B, C]` returns the scored papers in the order
`[A, C, B]`, with A's quality score above 90 (it is 100.0) and B's below 10
(it is 0.0). -/
theorem C6_rankPapers_scenario :
    rank_papers defaultScorers [paperA, paperB, paperC]
        = [(score_paper defaultScorers paperA).2,
           (score_paper defaultScorers paperC).2,
           (score_paper defaultScorers paperB).2]
      ∧ (score_paper defaultScorers paperA).1 > 90
      ∧ (score_paper defaultScorers paperB).1 < 10 := by
  refine ⟨?_, ?_, ?_⟩
  · with_unfolding_all rfl
  · have h : (score_paper defaultScorers paperA).1 = 100 := by with_unfolding_all rfl
    rw [h]; norm_num
  · have h : (score_paper defaultScorers paperB).1 = 0 := by with_unfolding_all rfl
    rw [h]; norm_num

/-- The citation-count step function is monotone. -/
lemma citeStep_mono {c1 c2 : Int} (h : c1 ≤ c2) : citeStep c1 ≤ citeStep c2 := by
  unfold citeStep
  split_ifs <;> norm_num <;> omega

/-- The age step chain of `freshnessScore` is antitone in the age. -/
lemma freshnessChain_anti (decay : Int) {a1 a2 : Int} (h : a1 ≤ a2) :
    (if a2 ≤ 1 then (1 : ℚ) else if a2 ≤ 3 then 0.8 else if a2 ≤ 7 then 0.6
      else if a2 ≤ 14 then 0.4 else if a2 ≤ decay then 0.2 else 0)
    ≤ (if a1 ≤ 1 then (1 : ℚ) else if a1 ≤ 3 then 0.8 else if a1 ≤ 7 then 0.6
      else if a1 ≤ 14 then 0.4 else if a1 ≤ decay then 0.2 else 0) := by
  split_ifs <;> norm_num <;> omega

/-- Claim C7: holding all other fields fixed, the citation signal is monotone
non-decreasing in the citation count, and the freshness signal is monotone
non-increasing in the age in days. -/
theorem C7_signal_monotonicity :
    (∀ (p : Paper) (c1 c2 : Int), c1 ≤ c2 →
        citationScore { p with s2_citation_count := c1 }
          ≤ citationScore { p with s2_citation_count := c2 })
    ∧ (∀ (decay : Int) (p : Paper) (a1 a2 : Int), a1 ≤ a2 →
        freshnessScore decay { p with published_age_days := some a2 }
          ≤ freshnessScore decay { p with published_age_days := some a1 }) := by
  constructor
  · intro p c1 c2 h
    cases p
    unfold citationScore
    dsimp only
    exact min_le_min (add_le_add_right (citeStep_mono h) _) le_rfl
  · intro decay p a1 a2 h
    cases p
    unfold freshnessScore
    dsimp only
    exact freshnessChain_anti decay h

/-- Witness for C7: 7 ≤ 30 citations and ages 2 ≤ 10 days. -/
theorem C7_signal_monotonicity_witness :
    citationScore { s2_citation_count := 7 } ≤ citationScore { s2_citation_count := 30 }
    ∧ freshnessScore 30 { published_age_days := some 10 }
        ≤ freshnessScore 30 { published_age_days := some 2 } :=
  ⟨C7_signal_monotonicity.1 {} 7 30 (by norm_num),
   C7_signal_monotonicity.2 30 {} 2 10 (by norm_num)⟩

/-- Round-half-even is nonnegative on nonnegative input. -/
lemma roundHalfEven_nonneg {x : ℚ} (hx : 0 ≤ x) : 0 ≤ roundHalfEven x := by
  unfold roundHalfEven
  dsimp only
  have h0 : (0 : ℤ) ≤ ⌊x⌋ := Int.le_floor.mpr (by exact_mod_cast hx)
  split_ifs <;> omega

/-- Round-half-even never rounds past an integer upper bound. -/
lemma roundHalfEven_le {x : ℚ} {m : ℤ} (hx : x ≤ m) : roundHalfEven x ≤ m := by
  unfold roundHalfEven
  have h1 : ⌊x⌋ ≤ m := by
    have h2 := Int.floor_le_floor hx
    rwa [Int.floor_intCast] at h2
  have hstep : 1/2 ≤ x - ⌊x⌋ → ⌊x⌋ + 1 ≤ m := by
    intro hr
    rcases lt_or_le ⌊x⌋ m with h | h
    · omega
    · exfalso
      have hcast : (m : ℚ) ≤ (⌊x⌋ : ℚ) := by exact_mod_cast h
      have hfl := Int.floor_le x
      linarith
  dsimp only
  split_ifs with h2 h3 h4
  · exact h1
  · exact hstep (le_of_lt h3)
  · exact h1
  · exact hstep (le_of_not_lt h2)

/-- `pyRound10` maps `[0, 100]` into `[0, 100]`. -/
lemma pyRound10_bounds {x : ℚ} (h0 : 0 ≤ x) (h100 : x ≤ 100) :
    0 ≤ pyRound10 x ∧ pyRound10 x ≤ 100 := by
  unfold pyRound10
  constructor
  · apply div_nonneg _ (by norm_num)
    exact_mod_cast roundHalfEven_nonneg (by linarith)
  · rw [div_le_iff₀ (by norm_num : (0 : ℚ) < 10)]
    have hb : roundHalfEven (10 * x) ≤ (1000 : ℤ) := roundHalfEven_le (by push_cast; linarith)
    calc (roundHalfEven (10 * x) : ℚ) ≤ 1000 := by exact_mod_cast hb
      _ = 100 * 10 := by norm_num

lemma citeStep_nonneg (c : Int) : 0 ≤ citeStep c := by
  unfold citeStep; split_ifs <;> norm_num

lemma infStep_nonneg (c : Int) : 0 ≤ infStep c := by
  unfold infStep; split_ifs <;> norm_num

lemma totalWeight_nonneg (scorers : List Scorer)
    (h : ∀ s ∈ scorers, 0 ≤ s.weight) : 0 ≤ totalWeight scorers := by
  apply List.sum_nonneg
  intro x hx
  obtain ⟨s, hs, rfl⟩ := List.mem_map.mp hx
  exact h s hs

lemma weightedSum_nonneg (scorers : List Scorer) (p : Paper)
    (h : ∀ s ∈ scorers, 0 ≤ s.weight ∧ 0 ≤ s.score p) :
    0 ≤ weightedSum scorers p := by
  apply List.sum_nonneg
  intro x hx
  obtain ⟨s, hs, rfl⟩ := List.mem_map.mp hx
  exact mul_nonneg (h s hs).2 (h s hs).1

lemma weightedSum_le_totalWeight (scorers : List Scorer) (p : Paper)
    (h : ∀ s ∈ scorers, 0 ≤ s.weight ∧ s.score p ≤ 1) :
    weightedSum scorers p ≤ totalWeight scorers := by
  unfold weightedSum totalWeight
  apply List.sum_le_sum
  intro s hs
  exact mul_le_of_le_one_left (h s hs).1 (h s hs).2

/-- Claim C5: every individual signal score lies in [0,1], and for every
policy of signals with nonnegative weights and [0,1]-valued score functions
the composite quality score lies in [0,100]. -/
theorem C5_bounds :
    (∀ p : Paper, 0 ≤ citationScore p ∧ citationScore p ≤ 1)
    ∧ (∀ (known : List String) (p : Paper),
        0 ≤ authorScore known p ∧ authorScore known p ≤ 1)
    ∧ (∀ p : Paper, 0 ≤ venueScore p ∧ venueScore p ≤ 1)
    ∧ (∀ (decay : Int) (p : Paper),
        0 ≤ freshnessScore decay p ∧ freshnessScore decay p ≤ 1)
    ∧ (∀ (kws : List String) (p : Paper),
        0 ≤ keywordScore kws p ∧ keywordScore kws p ≤ 1)
    ∧ (∀ (scorers : List Scorer) (p : Paper),
        (∀ s ∈ scorers, 0 ≤ s.weight ∧ ∀ q : Paper, 0 ≤ s.score q ∧ s.score q ≤ 1) →
        0 ≤ (score_paper scorers p).1 ∧ (score_paper scorers p).1 ≤ 100) := by
  refine ⟨?_, ?_, ?_, ?_, ?_, ?_⟩
  · intro p
    unfold citationScore
    exact ⟨le_min (add_nonneg (citeStep_nonneg _) (infStep_nonneg _)) (by norm_num),
           min_le_right _ _⟩
  · intro known p
    unfold authorScore
    dsimp only
    split_ifs <;> norm_num
  · intro p
    unfold venueScore
    refine ⟨le_min ?_ (by norm_num), min_le_right _ _⟩
    split_ifs <;> norm_num
  · intro decay p
    unfold freshnessScore
    rcases p.published_age_days with _ | age
    · norm_num
    · dsimp only
      split_ifs <;> norm_num
  · intro kws p
    unfold keywordScore
    dsimp only
    split_ifs <;> norm_num
  · intro scorers p h
    have hwts : ∀ s ∈ scorers, 0 ≤ s.weight := fun s hs => (h s hs).1
    have htw0 : 0 ≤ totalWeight scorers := totalWeight_nonneg _ hwts
    have hws0 : 0 ≤ weightedSum scorers p :=
      weightedSum_nonneg _ _ (fun s hs => ⟨(h s hs).1, ((h s hs).2 p).1⟩)
    have hwle : weightedSum scorers p ≤ totalWeight scorers :=
      weightedSum_le_totalWeight _ _ (fun s hs => ⟨(h s hs).1, ((h s hs).2 p).2⟩)
    simp only [score_paper]
    by_cases htw : totalWeight scorers = 0
    · have hW : weightedSum scorers p = 0 := le_antisymm (htw ▸ hwle) hws0
      rw [if_pos htw, hW]
      norm_num
      exact pyRound10_bounds le_rfl (by norm_num)
    · have hpos : 0 < totalWeight scorers := lt_of_le_of_ne htw0 (Ne.symm htw)
      rw [if_neg htw]
      apply pyRound10_bounds
      · positivity
      · have hdiv : weightedSum scorers p / totalWeight scorers ≤ 1 :=
          (div_le_one hpos).mpr hwle
        nlinarith [hdiv]

/-- Witness for C5's composite bound: the default policy on scenario paper C. -/
theorem C5_bounds_witness :
    0 ≤ (score_paper defaultScorers paperC).1
      ∧ (score_paper defaultScorers paperC).1 ≤ 100 :=
  C5_bounds.2.2.2.2.2 defaultScorers paperC (by
    intro s hs
    simp only [defaultScorers, CitationScorer, AuthorScorer, VenueScorer,
      FreshnessScorer, KeywordScorer, List.mem_cons, List.not_mem_nil, or_false] at hs
    rcases hs with rfl | rfl | rfl | rfl | rfl
    · exact ⟨by norm_num, fun q => C5_bounds.1 q⟩
    · exact ⟨by norm_num, fun q => C5_bounds.2.1 KNOWN_AFFILIATIONS q⟩
    · exact ⟨by norm_num, fun q => C5_bounds.2.2.1 q⟩
    · exact ⟨by norm_num, fun q => C5_bounds.2.2.2.1 30 q⟩
    · exact ⟨by norm_num, fun q => C5_bounds.2.2.2.2.1 BONUS_KEYWORDS q⟩)

/-- `record_failure` increments the counter and preserves the threshold. -/
lemma record_failure_fields (cb : CircuitBreaker) (t : ℚ) :
    (cb.record_failure t).failures = cb.failures + 1
    ∧ (cb.record_failure t).failure_threshold = cb.failure_threshold
    ∧ (cb.record_failure t).last_failure_time = t := by
  simp [CircuitBreaker.record_failure]

/-- Folding `record_failure` over a nonempty list of timestamps whose length
reaches the threshold leaves the breaker `OPEN`. -/
lemma foldFail_opened (ts : List ℚ) : ∀ cb : CircuitBreaker, ts ≠ [] →
    cb.failure_threshold ≤ cb.failures + ts.length →
    (ts.foldl CircuitBreaker.record_failure cb).stored_state = CBState.opened := by
  induction ts with
  | nil => intro cb h; exact absurd rfl h
  | cons t ts ih =>
      intro cb _ hle
      rw [List.foldl_cons]
      rcases eq_or_ne ts [] with rfl | hne
      · simp only [List.foldl_nil, CircuitBreaker.record_failure]
        rw [if_pos (show cb.failures + 1 ≥ cb.failure_threshold by
          simp only [List.length_cons, List.length_nil] at hle; omega)]
      · apply ih (cb.record_failure t) hne
        obtain ⟨h1, h2, _⟩ := record_failure_fields cb t
        rw [h1, h2]
        simp only [List.length_cons] at hle
        omega

/-- Reachability invariant: whenever the stored state is not `CLOSED`, the
failure counter has reached the threshold. -/
lemma cbReach_invariant {cb : CircuitBreaker} (h : CBReach cb) :
    cb.stored_state ≠ CBState.closed → cb.failure_threshold ≤ cb.failures := by
  induction h with
  | init thr cd => intro hc; exact absurd rfl hc
  | @fail cb t _ ih =>
      intro hc
      by_cases hf : cb.failures + 1 ≥ cb.failure_threshold
      · obtain ⟨h1, h2, _⟩ := record_failure_fields cb t
        rw [h1, h2]; omega
      · have hst : (cb.record_failure t).stored_state = cb.stored_state := by
          simp only [CircuitBreaker.record_failure]
          rw [if_neg hf]
        obtain ⟨h1, h2, _⟩ := record_failure_fields cb t
        rw [h1, h2]
        have := ih (by rwa [hst] at hc)
        omega
  | @succ cb _ ih =>
      intro hc
      exact absurd (by simp [CircuitBreaker.record_success]) hc
  | @res cb _ ih =>
      intro hc
      exact absurd (by simp [CircuitBreaker.reset]) hc
  | @obs cb t _ ih =>
      intro hc
      simp only [CircuitBreaker.observe] at hc ⊢
      split_ifs at hc ⊢ with hco
      · exact ih (by rw [hco.1]; intro hx; cases hx)
      · exact ih hc

/-- Claim C2: the circuit breaker's transitions — `failureThreshold`
consecutive failures from a fresh breaker open it; once the cooldown has
elapsed since the (last) failure, the next observation of `state` yields
`HALF_OPEN` (so `allow_request` lets the probe through); a single
`record_failure` while reachable-`HALF_OPEN` re-opens it with a refreshed
timestamp; a single `record_success` closes it with the counter reset. -/
theorem C2_circuitBreaker_transitions :
    (∀ (thr : ℕ) (cd : ℚ) (ts : List ℚ), 0 < thr → ts.length = thr →
        (ts.foldl CircuitBreaker.record_failure
            { failure_threshold := thr, cooldown := cd }).stored_state = CBState.opened)
    ∧ (∀ (cb : CircuitBreaker) (now : ℚ), cb.stored_state = CBState.opened →
        cb.last_failure_time + cb.cooldown ≤ now →
        (cb.observe now).1 = CBState.halfOpen ∧ (cb.allow_request now).1 = true)
    ∧ (∀ (cb : CircuitBreaker) (now : ℚ), CBReach cb →
        cb.stored_state = CBState.halfOpen →
        (cb.record_failure now).stored_state = CBState.opened
          ∧ (cb.record_failure now).last_failure_time = now)
    ∧ (∀ cb : CircuitBreaker,
        cb.record_success.stored_state = CBState.closed
          ∧ cb.record_success.failures = 0) := by
  refine ⟨?_, ?_, ?_, ?_⟩
  · intro thr cd ts hthr hlen
    apply foldFail_opened
    · intro hnil; rw [hnil] at hlen; simp at hlen; omega
    · simp [hlen]
  · intro cb now hst helapsed
    have hcond : cb.stored_state = CBState.opened ∧ now - cb.last_failure_time ≥ cb.cooldown :=
      ⟨hst, by linarith⟩
    constructor
    · simp only [CircuitBreaker.observe, if_pos hcond]
    · simp only [CircuitBreaker.allow_request, CircuitBreaker.observe, if_pos hcond]
      rfl
  · intro cb now hreach hst
    have hinv : cb.failure_threshold ≤ cb.failures :=
      cbReach_invariant hreach (by rw [hst]; intro hx; cases hx)
    constructor
    · simp only [CircuitBreaker.record_failure]
      rw [if_pos (show cb.failures + 1 ≥ cb.failure_threshold by omega)]
    · exact (record_failure_fields cb now).2.2
  · intro cb
    exact ⟨rfl, rfl⟩

/-- Witness for C2 on concrete breakers: threshold 4 opened by four failures;
an open breaker at cooldown observed `HALF_OPEN`; the reachable half-open
breaker re-opened by one failure at t = 7; a success closing a breaker. -/
theorem C2_circuitBreaker_transitions_witness :
    (([1, 2, 3, 4] : List ℚ).foldl CircuitBreaker.record_failure
        { failure_threshold := 4, cooldown := 60 }).stored_state = CBState.opened
    ∧ (({ failure_threshold := 4, cooldown := 60, failures := 4, last_failure_time := 4,
          stored_state := CBState.opened } : CircuitBreaker).observe 64).1 = CBState.halfOpen
    ∧ ((cbHalfOpenW.record_failure 7).stored_state = CBState.opened
        ∧ (cbHalfOpenW.record_failure 7).last_failure_time = 7)
    ∧ (({ failures := 3 } : CircuitBreaker).record_success.stored_state = CBState.closed
        ∧ ({ failures := 3 } : CircuitBreaker).record_success.failures = 0) :=
  ⟨C2_circuitBreaker_transitions.1 4 60 [1, 2, 3, 4] (by norm_num) rfl,
   (C2_circuitBreaker_transitions.2.1 _ 64 rfl (by norm_num)).1,
   C2_circuitBreaker_transitions.2.2.1 cbHalfOpenW 7
     (CBReach.obs 0 (CBReach.fail 0 (CBReach.init 1 0)))
     (by with_unfolding_all rfl),
   C2_circuitBreaker_transitions.2.2.2 { failures := 3 }⟩

/-- Exhausting the loop on rate-limit / server / connection errors: every
remaining attempt fails retryably, so the loop uses them all, records exactly
one breaker failure (at exhaustion), and raises the last attempt's error. -/
lemma retryLoop_trio_exhaust {R : Type} (fn : ℕ → Except LLMErr R) (retries : ℕ) :
    ∀ (remaining attempt : ℕ) (last : Option LLMErr) (cb : CircuitBreaker) (now : ℚ)
      (sleeps : List ℚ) (nf : ℕ),
      remaining + attempt = retries + 1 →
      attempt ≤ retries →
      (∀ i, attempt ≤ i → i ≤ retries → ∃ e, fn i = Except.error e ∧
          (e.kind = ErrKind.rateLimit ∨ e.kind = ErrKind.server ∨ e.kind = ErrKind.connection)) →
      (retryLoop fn retries remaining attempt last (some cb) now sleeps nf).attempts = retries + 1
      ∧ (retryLoop fn retries remaining attempt last (some cb) now sleeps nf).failures_recorded
          = nf + 1
      ∧ ∀ e, fn retries = Except.error e →
          (retryLoop fn retries remaining attempt last (some cb) now sleeps nf).result
            = RetryResult.err e := by
  intro remaining
  induction remaining with
  | zero =>
      intro attempt last cb now sleeps nf hrem hle _
      exact absurd hrem (by omega)
  | succ m ih =>
      intro attempt last cb now sleeps nf hrem hle hfn
      obtain ⟨e, hfe, hkind⟩ := hfn attempt le_rfl hle
      rcases lt_or_eq_of_le hle with hlt | heq
      · -- not the final attempt: sleep and recurse, breaker untouched
        have hrec := fun (l : Option LLMErr) (c : CircuitBreaker) (t : ℚ) (s : List ℚ) =>
          ih (attempt + 1) l c t s nf (by omega) (by omega)
            (fun i h1 h2 => hfn i (by omega) h2)
        rcases hkind with hk | hk | hk <;>
          simp only [retryLoop, hfe, hk, if_pos hlt] <;>
          exact hrec (some e) cb _ _
      · -- final attempt: record one failure, loop ends, raise the last error
        subst heq
        have hm : m = 0 := by omega
        subst hm
        rcases hkind with hk | hk | hk <;>
          simp only [retryLoop, hfe, hk, lt_irrefl, if_false, circCount, Option.isSome_some,
            if_true, circFail] <;>
          exact ⟨by trivial, by trivial, fun e2 he2 => by cases he2; rfl⟩

/-- Claim C3: with an allowing breaker, a non-retryable (auth / bad-request)
error on the first attempt yields exactly one attempt, no sleep, one recorded
breaker failure, and that error raised; retryable (rate-limit / server /
connection) errors on every attempt yield exactly `retries + 1` attempts, one
recorded breaker failure, and the last attempt's error raised. -/
theorem C3_retry_classification :
    (∀ (R : Type) (fn : ℕ → Except LLMErr R) (retries : ℕ) (cb : CircuitBreaker)
        (now : ℚ) (e : LLMErr),
        (cb.allow_request now).1 = true →
        fn 0 = Except.error e →
        (e.kind = ErrKind.auth ∨ e.kind = ErrKind.badRequest) →
        call_with_retry fn retries (some cb) now =
          ⟨RetryResult.err e, 1, [], 1,
           some (((cb.allow_request now).2).record_failure now)⟩)
    ∧ (∀ (R : Type) (fn : ℕ → Except LLMErr R) (retries : ℕ) (cb : CircuitBreaker) (now : ℚ),
        (cb.allow_request now).1 = true →
        (∀ i, i ≤ retries → ∃ e, fn i = Except.error e ∧
            (e.kind = ErrKind.rateLimit ∨ e.kind = ErrKind.server ∨ e.kind = ErrKind.connection)) →
        (call_with_retry fn retries (some cb) now).attempts = retries + 1
        ∧ (call_with_retry fn retries (some cb) now).failures_recorded = 1
        ∧ ∀ e, fn retries = Except.error e →
            (call_with_retry fn retries (some cb) now).result = RetryResult.err e) := by
  constructor
  · intro R fn retries cb now e hallow hfe hkind
    rcases hkind with hk | hk <;>
      simp only [call_with_retry, hallow, if_true, retryLoop, hfe, hk, circCount,
        Option.isSome_some, if_true, circFail, Nat.zero_add] <;> rfl
  · intro R fn retries cb now hallow hfn
    simp only [call_with_retry, hallow, if_true]
    exact retryLoop_trio_exhaust fn retries (retries + 1) 0 none _ now [] 0 (by omega)
      (by omega) (fun i _ h2 => hfn i h2)

/-- Witness for C3: an always-auth-failing operation makes one attempt and one
recorded failure; an always-server-failing operation with 2 retries makes
three attempts, one recorded failure, and raises the last server error. -/
theorem C3_retry_classification_witness :
    (call_with_retry (fun _ => (Except.error ⟨ErrKind.auth, "denied"⟩ : Except LLMErr ℕ))
        3 (some {}) 0 =
      ⟨RetryResult.err ⟨ErrKind.auth, "denied"⟩, 1, [], 1,
       some (((({} : CircuitBreaker).allow_request 0).2).record_failure 0)⟩)
    ∧ (call_with_retry (fun _ => (Except.error ⟨ErrKind.server, "boom"⟩ : Except LLMErr ℕ))
        2 (some {}) 0).attempts = 3
    ∧ (call_with_retry (fun _ => (Except.error ⟨ErrKind.server, "boom"⟩ : Except LLMErr ℕ))
        2 (some {}) 0).failures_recorded = 1
    ∧ (call_with_retry (fun _ => (Except.error ⟨ErrKind.server, "boom"⟩ : Except LLMErr ℕ))
        2 (some {}) 0).result = RetryResult.err ⟨ErrKind.server, "boom"⟩ := by
  have hallow : ((({} : CircuitBreaker).allow_request 0)).1 = true := rfl
  have hfn : ∀ i, i ≤ 2 →
      ∃ e, (fun _ => (Except.error ⟨ErrKind.server, "boom"⟩ : Except LLMErr ℕ)) i
            = Except.error e
        ∧ (e.kind = ErrKind.rateLimit ∨ e.kind = ErrKind.server ∨ e.kind = ErrKind.connection) :=
    fun i _ => ⟨⟨ErrKind.server, "boom"⟩, rfl, Or.inr (Or.inl rfl)⟩
  refine ⟨?_, ?_, ?_, ?_⟩
  · exact C3_retry_classification.1 ℕ _ 3 {} 0 ⟨ErrKind.auth, "denied"⟩ hallow rfl (Or.inl rfl)
  · exact (C3_retry_classification.2 ℕ _ 2 {} 0 hallow hfn).1
  · exact (C3_retry_classification.2 ℕ _ 2 {} 0 hallow hfn).2.1
  · exact (C3_retry_classification.2 ℕ _ 2 {} 0 hallow hfn).2.2 _ rfl

/-- A prefix match survives extending the list on the right. -/
lemma leadMatch_weaken : ∀ (pat l r : List Char),
    leadMatch pat l = true → leadMatch pat (l ++ r) = true := by
  intro pat
  induction pat with
  | nil => intro l r _; rfl
  | cons p ps ih =>
      intro l r h
      cases l with
      | nil => simp [leadMatch] at h
      | cons c cs =>
          simp only [leadMatch, Bool.and_eq_true] at h ⊢
          exact ⟨h.1, ih cs r h.2⟩

/-- A substring occurrence survives extending the list on the right. -/
lemma listContains_append_right : ∀ (pat l r : List Char),
    listContains pat l = true → listContains pat (l ++ r) = true := by
  intro pat l
  induction l with
  | nil =>
      intro r h
      cases pat with
      | nil =>
          cases r with
          | nil => rfl
          | cons c cs => simp [listContains, leadMatch]
      | cons a as => simp [listContains, leadMatch] at h
  | cons c cs ih =>
      intro r h
      simp only [listContains, Bool.or_eq_true] at h ⊢
      rcases h with h | h
      · exact Or.inl (leadMatch_weaken _ _ _ h)
      · exact Or.inr (ih r h)

/-- `strContains` is monotone under appending on the right. -/
lemma strContains_append_r (a b pat : String) (h : strContains a pat = true) :
    strContains (a ++ b) pat = true :=
  listContains_append_right pat.toList a.toList b.toList h

/-- The stage-2 failure marker occurs in the fallback template head. -/
lemma strContains_marker :
    strContains "- Problem: extraction failed
- Method: " "extraction failed" = true := by
  decide

/-- A bulleted string is never empty. -/
lemma bulletPre_ne_empty (s : String) : "• " ++ s ≠ "" := by
  intro h
  have h2 := congrArg String.data h
  rw [String.data_append] at h2
  exact absurd (List.append_eq_nil.mp h2).1 (by decide)

/-- A key absent from the store looks up to `none`. -/
lemma lookup_eq_none_of_not_mem {k : String} : ∀ m : List (String × String),
    k ∉ m.map Prod.fst → m.lookup k = none := by
  intro m
  induction m with
  | nil => intro _; rfl
  | cons kv m ih =>
      intro h
      obtain ⟨a, b⟩ := kv
      simp only [List.map_cons, List.mem_cons, not_or] at h
      have hne : (k == a) = false := beq_eq_false_iff_ne.mpr h.1
      simp [List.lookup, hne, ih h.2]

/-- Inserting a fresh key appends the pair. -/
lemma dictInsert_fresh {m : List (String × String)} {k v : String}
    (h : k ∉ m.map Prod.fst) : dictInsert m k v = m ++ [(k, v)] := by
  unfold dictInsert
  rw [lookup_eq_none_of_not_mem m h]
  simp

/-- When every remote call fails, `structured_extract` returns the marker
string and bumps the failure counter. -/
lemma structured_extract_fails (llm : LLMStub)
    (hfail : ∀ pr sys, ∃ e, llm.chat pr sys = Except.error e) (fails : ℕ) (k t : String) :
    strContains (structured_extract (some llm) fails k t).1 "extraction failed" = true
    ∧ (structured_extract (some llm) fails k t).2 = fails + 1 := by
  obtain ⟨e, he⟩ := hfail (EXTRACT_PROMPT_fmt k t) EXTRACT_SYSTEM
  unfold structured_extract chatOf
  dsimp only
  rw [he]
  refine ⟨?_, rfl⟩
  exact strContains_append_r _ _ _ (strContains_append_r _ _ _
    (strContains_append_r _ _ _ (strContains_append_r _ _ _ strContains_marker)))

/-- When every remote call fails, `summarize` degrades to the rule-based
summary for any paper with a non-empty abstract. -/
lemma summarize_llm_failing (llm : LLMStub)
    (hfail : ∀ pr sys, ∃ e, llm.chat pr sys = Except.error e)
    (lang : String) (fails : ℕ) (p : Paper) (hs : ¬p.summary = "") :
    summarize (some llm) lang fails p
      = (rule_based_summary p, if fails ≥ 6 then fails else fails + 1) := by
  unfold summarize
  rw [if_neg hs]
  by_cases h6 : fails ≥ 6
  · rw [if_pos h6, if_pos h6]
  · rw [if_neg h6, if_neg h6]
    obtain ⟨hmark, hcount⟩ := structured_extract_fails llm hfail fails
      (extract_key_sentences p.summary 6) p.title
    dsimp only
    rw [if_pos hmark, hcount]

/-- With an always-failing capability, `summarize` returns the rule-based
summary for every paper: a paper with an empty abstract gets the no-abstract
marker (which is its rule-based summary) with the counter untouched, and any
other paper degrades through the failing stages. -/
lemma summarize_failing_any (llm : LLMStub)
    (hfail : ∀ pr sys, ∃ e, llm.chat pr sys = Except.error e)
    (lang : String) (fails : ℕ) (p : Paper) :
    ∃ f' : ℕ, summarize (some llm) lang fails p = (rule_based_summary p, f') := by
  by_cases hs : p.summary = ""
  · refine ⟨fails, ?_⟩
    unfold summarize rule_based_summary
    rw [if_pos hs, if_pos hs]
  · exact ⟨_, summarize_llm_failing llm hfail lang fails p hs⟩

/-- The keys produced by the batch loop are the assigned ids, in order,
appended to the accumulator's keys (given global key freshness). -/
lemma summarizeBatchGo_keys (llm : Option LLMStub) (lang : String) :
    ∀ (papers : List Paper) (i fails : ℕ) (acc : List (String × String)),
      (acc.map Prod.fst ++ assignedIdsGo i papers).Nodup →
      (summarizeBatchGo llm lang fails i papers acc).1.map Prod.fst
        = acc.map Prod.fst ++ assignedIdsGo i papers := by
  intro papers
  induction papers with
  | nil =>
      intro i fails acc _
      simp [summarizeBatchGo, assignedIdsGo]
  | cons p rest ih =>
      intro i fails acc h
      simp only [assignedIdsGo] at h
      have hid : assignedId i p ∉ acc.map Prod.fst := by
        intro hmem
        rw [List.nodup_append] at h
        exact h.2.2 hmem (List.mem_cons_self _ _)
      have hpre : ∀ v : String,
          ((acc ++ [(assignedId i p, v)]).map Prod.fst ++ assignedIdsGo (i + 1) rest).Nodup := by
        intro v
        simpa [List.map_append, List.append_assoc] using h
      have step : ∀ (v : String) (f' : ℕ),
          (summarizeBatchGo llm lang f' (i + 1) rest
              (dictInsert acc (assignedId i p) v)).1.map Prod.fst
            = acc.map Prod.fst ++ (assignedId i p :: assignedIdsGo (i + 1) rest) := by
        intro v f'
        rw [dictInsert_fresh hid, ih (i + 1) f' _ (hpre v)]
        simp [List.map_append, List.append_assoc]
      simp only [summarizeBatchGo, assignedIdsGo]
      by_cases h6 : fails ≥ 6
      · rw [if_pos h6]; exact step _ _
      · rw [if_neg h6]; exact step _ _

/-- With an always-failing capability, the batch loop produces exactly the
rule-based entry for every paper of the batch, empty abstracts included. -/
lemma summarizeBatchGo_fallback (llm : LLMStub)
    (hfail : ∀ pr sys, ∃ e, llm.chat pr sys = Except.error e) (lang : String) :
    ∀ (papers : List Paper) (i fails : ℕ) (acc : List (String × String)),
      (acc.map Prod.fst ++ assignedIdsGo i papers).Nodup →
      (summarizeBatchGo (some llm) lang fails i papers acc).1
        = acc ++ ruleEntriesGo i papers := by
  intro papers
  induction papers with
  | nil =>
      intro i fails acc _
      simp [summarizeBatchGo, ruleEntriesGo]
  | cons p rest ih =>
      intro i fails acc h
      simp only [assignedIdsGo] at h
      have hid : assignedId i p ∉ acc.map Prod.fst := by
        intro hmem
        rw [List.nodup_append] at h
        exact h.2.2 hmem (List.mem_cons_self _ _)
      have hpre : ∀ v : String,
          ((acc ++ [(assignedId i p, v)]).map Prod.fst ++ assignedIdsGo (i + 1) rest).Nodup := by
        intro v
        simpa [List.map_append, List.append_assoc] using h
      simp only [summarizeBatchGo, ruleEntriesGo]
      by_cases h6 : fails ≥ 6
      · rw [if_pos h6, dictInsert_fresh hid, ih (i + 1) fails _ (hpre _)]
        simp
      · obtain ⟨f', hsum⟩ := summarize_failing_any llm hfail lang fails p
        rw [if_neg h6, hsum]
        dsimp only
        rw [dictInsert_fresh hid, ih (i + 1) _ _ (hpre _)]
        simp

/-- Claim C4: with a remote-call capability that always fails, `summarize_batch`
over any batch (distinct ids) stores the rule-based entry for every paper, so
in particular every paper with a non-empty abstract gets a non-empty entry of
the rule-based fallback form — a single bullet built from the 3-sentence key
extraction, truncated to the 250-character budget with an ellipsis marker —
and, being a total function, propagates no error. -/
theorem C4_summarizer_fallback_coverage (llm : LLMStub)
    (hfail : ∀ pr sys, ∃ e, llm.chat pr sys = Except.error e)
    (lang : String) (fails : ℕ) (papers : List Paper)
    (hnd : (assignedIds papers).Nodup) :
    (summarize_batch (some llm) lang fails papers).1 = ruleEntriesGo 1 papers
    ∧ ∀ p ∈ papers, ¬p.summary = "" →
        rule_based_summary p ≠ ""
        ∧ rule_based_summary p =
            "• " ++ (if (extract_key_sentences p.summary 3).length > 250
                      then (extract_key_sentences p.summary 3).take 247 ++ "..."
                      else extract_key_sentences p.summary 3) := by
  constructor
  · unfold summarize_batch
    have hgo := summarizeBatchGo_fallback llm hfail lang papers 1 fails []
      (by simpa [assignedIds] using hnd)
    simpa using hgo
  · intro p _ hs
    refine ⟨?_, ?_⟩
    · unfold rule_based_summary
      rw [if_neg hs]
      apply bulletPre_ne_empty
    · unfold rule_based_summary
      rw [if_neg hs]

/-- Witness for C4: a mixed batch — one empty-abstract paper and one paper
with a real abstract — under the always-failing capability. -/
theorem C4_summarizer_fallback_coverage_witness :
    (summarize_batch (some failingLLM) "zh" 0 [emptyAbstractPaper, absPaper]).1
        = ruleEntriesGo 1 [emptyAbstractPaper, absPaper]
    ∧ ∀ p ∈ [emptyAbstractPaper, absPaper], ¬p.summary = "" →
        rule_based_summary p ≠ ""
        ∧ rule_based_summary p =
            "• " ++ (if (extract_key_sentences p.summary 3).length > 250
                      then (extract_key_sentences p.summary 3).take 247 ++ "..."
                      else extract_key_sentences p.summary 3) :=
  C4_summarizer_fallback_coverage failingLLM (fun _ _ => ⟨"boom", rfl⟩) "zh" 0
    [emptyAbstractPaper, absPaper] (by decide)

/-- Counterexample to claim C9 as stated: a batch holding one paper with an
empty abstract still gets an entry for that paper (the no-abstract marker),
whereas the claim says the mapping contains no entry for it. -/
theorem C9_emptyAbstract_entry_counterexample :
    (summarize_batch (some failingLLM) "zh" 0 [emptyAbstractPaper]).1.lookup "x"
      = some "• 无摘要信息" := by
  rfl

/-- Claim C9 (amended): for distinct paper ids, the mapping returned by
`summarize_batch` contains exactly one entry per paper of the batch — papers
with empty abstracts included (they receive the no-abstract marker). -/
theorem C9_batch_one_entry_per_paper (llm : Option LLMStub) (lang : String)
    (fails : ℕ) (papers : List Paper) (hnd : (assignedIds papers).Nodup) :
    (summarize_batch llm lang fails papers).1.map Prod.fst = assignedIds papers := by
  unfold summarize_batch
  have hgo := summarizeBatchGo_keys llm lang papers 1 fails []
    (by simpa [assignedIds] using hnd)
  simpa [assignedIds] using hgo

/-- Witness for C9: a two-paper batch, one empty abstract, one not. -/
theorem C9_batch_one_entry_per_paper_witness :
    (summarize_batch (some failingLLM) "zh" 0 [emptyAbstractPaper, absPaper]).1.map Prod.fst
      = assignedIds [emptyAbstractPaper, absPaper] :=
  C9_batch_one_entry_per_paper (some failingLLM) "zh" 0 [emptyAbstractPaper, absPaper]
    (by decide)

/-- `insertLe` is a permutation of consing. -/
lemma insertLe_perm (le : α → α → Bool) (a : α) :
    ∀ l : List α, List.Perm (insertLe le a l) (a :: l) := by
  intro l
  induction l with
  | nil => exact List.Perm.refl _
  | cons b bs ih =>
      by_cases h : le a b
      · rw [insertLe, if_pos h]
      · rw [insertLe, if_neg h]
        exact (ih.cons b).trans (List.Perm.swap a b bs)

/-- `sortLe` permutes its input. -/
lemma sortLe_perm (le : α → α → Bool) : ∀ l : List α, List.Perm (sortLe le l) l := by
  intro l
  induction l with
  | nil => exact List.Perm.refl _
  | cons a as ih => exact (insertLe_perm le a (sortLe le as)).trans (ih.cons a)

/-- Inserting into a `le`-sorted list keeps it sorted (for a total transitive
comparator). -/
lemma pairwise_insertLe (le : α → α → Bool)
    (htrans : ∀ a b c, le a b = true → le b c = true → le a c = true)
    (htotal : ∀ a b, le a b = true ∨ le b a = true) (a : α) :
    ∀ l, List.Pairwise (fun x y => le x y = true) l →
      List.Pairwise (fun x y => le x y = true) (insertLe le a l) := by
  intro l
  induction l with
  | nil => intro _; simp [insertLe]
  | cons b bs ih =>
      intro h
      obtain ⟨hb, hbs⟩ := List.pairwise_cons.mp h
      by_cases hab : le a b
      · rw [insertLe, if_pos hab]
        refine List.pairwise_cons.mpr ⟨?_, h⟩
        intro x hx
        rcases List.mem_cons.mp hx with rfl | hx
        · exact hab
        · exact htrans a b x hab (hb x hx)
      · rw [insertLe, if_neg hab]
        refine List.pairwise_cons.mpr ⟨?_, ih hbs⟩
        intro x hx
        rcases List.mem_cons.mp ((insertLe_perm le a bs).mem_iff.mp hx) with hxa | hx'
        · rw [hxa]
          rcases htotal a b with h1 | h1
          · exact absurd h1 (by simpa using hab)
          · exact h1
        · exact hb x hx'

/-- `sortLe` sorts, for a total transitive comparator. -/
lemma sortLe_pairwise (le : α → α → Bool)
    (htrans : ∀ a b c, le a b = true → le b c = true → le a c = true)
    (htotal : ∀ a b, le a b = true ∨ le b a = true) :
    ∀ l : List α, List.Pairwise (fun x y => le x y = true) (sortLe le l) := by
  intro l
  induction l with
  | nil => simp [sortLe]
  | cons a as ih => exact pairwise_insertLe le htrans htotal a _ ih

/-- Members of `enumFrom n` carry indices at least `n`. -/
lemma fst_ge_of_mem_enumFrom : ∀ (l : List α) (n : ℕ) (x : ℕ × α),
    x ∈ l.enumFrom n → n ≤ x.1 := by
  intro l
  induction l with
  | nil => intro n x hx; simp [List.enumFrom] at hx
  | cons a l ih =>
      intro n x hx
      rw [List.enumFrom_cons] at hx
      rcases List.mem_cons.mp hx with rfl | hx
      · exact le_rfl
      · exact le_trans (Nat.le_succ n) (ih (n + 1) x hx)

/-- A list of enumerated entries with strictly increasing indices projects to
a sublist of the underlying list. -/
lemma pairs_sublist : ∀ (l : List α) (n : ℕ) (t : List (ℕ × α)),
    (∀ x ∈ t, x ∈ l.enumFrom n) → t.Pairwise (fun a b => a.1 < b.1) →
    List.Sublist (t.map Prod.snd) l := by
  intro l
  induction l with
  | nil =>
      intro n t hmem _
      cases t with
      | nil => exact List.nil_sublist _
      | cons x xs => exact absurd (hmem x (List.mem_cons_self _ _)) (by simp [List.enumFrom])
  | cons a l ih =>
      intro n t hmem hpair
      cases t with
      | nil => exact List.nil_sublist _
      | cons x xs =>
          simp only [List.enumFrom_cons] at hmem
          obtain ⟨hx1, hxs⟩ := List.pairwise_cons.mp hpair
          rcases List.mem_cons.mp (hmem x (List.mem_cons_self _ _)) with rfl | hx
          · simp only [List.map_cons]
            refine List.Sublist.cons₂ a (ih (n + 1) xs ?_ hxs)
            intro y hy
            rcases List.mem_cons.mp (hmem y (List.mem_cons_of_mem _ hy)) with rfl | hy'
            · have hlt : (n, a).1 < (n, a).1 := hx1 _ hy
              exact absurd hlt (lt_irrefl _)
            · exact hy'
          · refine List.Sublist.cons a (ih (n + 1) (x :: xs) ?_ hpair)
            intro y hy
            rcases List.mem_cons.mp (hmem y hy) with rfl | hy'
            · rcases List.mem_cons.mp hy with rfl | hyxs
              · have hge : n + 1 ≤ (n, a).1 := fst_ge_of_mem_enumFrom _ _ _ hx
                exact absurd hge (by omega)
              · have h1 : x.1 < (n, a).1 := hx1 _ hyxs
                have h2 : n + 1 ≤ x.1 := fst_ge_of_mem_enumFrom _ _ _ hx
                have h3 : (n, a).1 = n := rfl
                omega
            · exact hy'

/-- Whatever survives `dropWhile p` starts with a non-`p` element. -/
lemma dropWhile_head_not (p : α → Bool) : ∀ (l : List α) (c : α),
    (l.dropWhile p).head? = some c → p c = false := by
  intro l
  induction l with
  | nil => intro c h; simp at h
  | cons a as ih =>
      intro c h
      rw [List.dropWhile_cons] at h
      by_cases hp : p a
      · rw [if_pos hp] at h
        exact ih c h
      · rw [if_neg hp] at h
        simp only [List.head?_cons, Option.some.injEq] at h
        rw [← h]
        simpa using hp

/-- The last character of a stripped string is not whitespace. -/
lemma trimChars_last (l : List Char) (c : Char) :
    (trimChars l).getLast? = some c → c.isWhitespace = false := by
  unfold trimChars
  intro h
  rw [List.getLast?_reverse] at h
  exact dropWhile_head_not _ _ c h

/-- Every piece the sentence splitter produces is non-empty, provided the
input list does not end in whitespace (and the current piece is non-empty if
the input is exhausted). -/
lemma splitGo_ne_nil : ∀ (l : List Char) (mode : Bool) (acc : List Char),
    (mode = true → acc = [] ∧ l ≠ [] ∧ ∀ c, l.getLast? = some c → c.isWhitespace = false) →
    (mode = false → (l = [] → acc ≠ []) ∧
        (l ≠ [] → ∀ c, l.getLast? = some c → c.isWhitespace = false)) →
    ∀ piece ∈ splitGo mode acc l, piece ≠ [] := by
  intro l
  induction l with
  | nil =>
      intro mode acc ht hf piece hp
      cases mode
      · have hacc := (hf rfl).1 rfl
        simp only [splitGo, List.mem_singleton] at hp
        subst hp
        simpa using hacc
      · exact absurd rfl (ht rfl).2.1
  | cons ch rest ih =>
      intro mode acc ht hf piece hp
      have hlast : ∀ c, (ch :: rest).getLast? = some c → c.isWhitespace = false := by
        cases mode
        · exact (hf rfl).2 (by simp)
        · exact (ht rfl).2.2
      have hrest_last : rest ≠ [] → ∀ c, rest.getLast? = some c → c.isWhitespace = false := by
        intro hne c hc
        apply hlast c
        cases rest with
        | nil => exact absurd rfl hne
        | cons r rs => rw [List.getLast?_cons_cons]; exact hc
      have hch_last : rest = [] → ch.isWhitespace = false := by
        intro hnil
        subst hnil
        exact hlast ch (by simp)
      cases mode
      · -- mode = false
        simp only [splitGo, Bool.false_eq_true, if_false] at hp
        by_cases hcond : ch.isWhitespace && headPunct acc
        · rw [if_pos hcond] at hp
          rcases List.mem_cons.mp hp with hpe | hp'
          · have hacc : acc ≠ [] := by
              intro h0
              subst h0
              simp [headPunct] at hcond
            rw [hpe]
            simpa using hacc
          · have hrne : rest ≠ [] := by
              intro h0
              have hc := hch_last h0
              simp [hc] at hcond
            exact ih true [] (fun _ => ⟨rfl, hrne, hrest_last hrne⟩) (fun h => by cases h)
              piece hp'
        · rw [if_neg hcond] at hp
          exact ih false (ch :: acc) (fun h => by cases h)
            (fun _ => ⟨fun _ => by simp, fun hne => hrest_last hne⟩) piece hp
      · -- mode = true
        obtain ⟨hacc0, -, -⟩ := ht rfl
        subst hacc0
        simp only [splitGo, if_true] at hp
        by_cases hws : ch.isWhitespace
        · rw [if_pos hws] at hp
          have hrne : rest ≠ [] := by
            intro h0
            have hc := hch_last h0
            simp [hc] at hws
          exact ih true [] (fun _ => ⟨rfl, hrne, hrest_last hrne⟩) (fun h => by cases h)
            piece hp
        · rw [if_neg hws] at hp
          exact ih false [ch] (fun h => by cases h)
            (fun _ => ⟨fun _ => by simp, fun hne => hrest_last hne⟩) piece hp

/-- Joining a list whose head is non-empty is non-empty. -/
lemma joinChars_ne_nil (x : List Char) (xs : List (List Char)) (hx : x ≠ []) :
    joinChars (x :: xs) ≠ [] := by
  cases xs with
  | nil => simpa [joinChars] using hx
  | cons y ys =>
      simp only [joinChars]
      intro h
      rcases List.append_eq_nil.mp h with ⟨-, h2⟩
      cases h2

/-- A string with non-empty character data is not the empty string. -/
lemma mk_ne_empty {l : List Char} (h : l ≠ []) : String.mk l ≠ "" := by
  intro he
  exact h (congrArg String.data he)

/-- Every element selected by `topOf` comes from the scored list. -/
lemma topOf_mem (sentences : List String) (m : ℕ) :
    ∀ x ∈ topOf sentences m, x ∈ scoredOf sentences := by
  intro x hx
  have h1 := (sortLe_perm _ _).mem_iff.mp hx
  have h2 := List.take_subset _ _ h1
  exact (sortLe_perm _ _).mem_iff.mp h2

/-- `topOf` selects exactly `m` entries when `m` is within range. -/
lemma topOf_length (sentences : List String) (m : ℕ) (hm : m ≤ sentences.length) :
    (topOf sentences m).length = m := by
  unfold topOf
  rw [(sortLe_perm _ _).length_eq, List.length_take, (sortLe_perm _ _).length_eq]
  unfold scoredOf
  rw [List.length_map, List.enum_length]
  omega

/-- The selected entries are strictly increasing in original index. -/
lemma topOf_pairwise_lt (sentences : List String) (m : ℕ) :
    (topOf sentences m).Pairwise (fun a b => a.1 < b.1) := by
  have hle : (topOf sentences m).Pairwise (fun a b => a.1 ≤ b.1) := by
    have hp := sortLe_pairwise (fun a b : ℕ × ℕ × String => decide (a.1 ≤ b.1))
      (fun a b c h1 h2 => decide_eq_true (le_trans (of_decide_eq_true h1) (of_decide_eq_true h2)))
      (fun a b => by
        rcases Nat.le_total a.1 b.1 with h | h
        · exact Or.inl (decide_eq_true h)
        · exact Or.inr (decide_eq_true h))
      ((sortLe (fun a b => decide (b.2.1 ≤ a.2.1)) (scoredOf sentences)).take m)
    exact hp.imp fun h => of_decide_eq_true h
  have hsc : ((scoredOf sentences).map fun x => x.1).Nodup := by
    unfold scoredOf
    rw [List.map_map]
    exact List.nodup_enum_map_fst _
  have h3 : List.Perm ((sortLe (fun a b => decide (b.2.1 ≤ a.2.1)) (scoredOf sentences)).map
      fun x => x.1) ((scoredOf sentences).map fun x => x.1) := (sortLe_perm _ _).map _
  have h2 : List.Sublist (((sortLe (fun a b => decide (b.2.1 ≤ a.2.1))
        (scoredOf sentences)).take m).map fun x => x.1)
      ((sortLe (fun a b => decide (b.2.1 ≤ a.2.1)) (scoredOf sentences)).map fun x => x.1) :=
    (List.take_sublist _ _).map _
  have h1 : List.Perm ((topOf sentences m).map fun x => x.1)
      (((sortLe (fun a b => decide (b.2.1 ≤ a.2.1)) (scoredOf sentences)).take m).map
        fun x => x.1) := (sortLe_perm _ _).map _
  have hnd : ((topOf sentences m).map fun x => x.1).Nodup :=
    h1.nodup_iff.mpr (List.Nodup.sublist h2 (h3.nodup_iff.mpr hsc))
  have hne : (topOf sentences m).Pairwise fun a b => a.1 ≠ b.1 := List.pairwise_map.mp hnd
  exact (hle.and hne).imp fun h => lt_of_le_of_ne h.1 h.2

/-- The sentences selected by `topOf` form a sublist of the input sentences. -/
lemma topOf_sublist (sentences : List String) (m : ℕ) :
    List.Sublist ((topOf sentences m).map fun x => x.2.2) sentences := by
  have hmem : ∀ y ∈ (topOf sentences m).map fun x => (x.1, x.2.2),
      y ∈ sentences.enumFrom 0 := by
    intro y hy
    obtain ⟨x, hx, rfl⟩ := List.mem_map.mp hy
    have hsc := topOf_mem sentences m x hx
    unfold scoredOf at hsc
    obtain ⟨z, hz, rfl⟩ := List.mem_map.mp hsc
    exact hz
  have hpair : ((topOf sentences m).map fun x => (x.1, x.2.2)).Pairwise
      fun a b => a.1 < b.1 :=
    List.pairwise_map.mpr ((topOf_pairwise_lt sentences m).imp fun h => h)
  have hsub := pairs_sublist sentences 0 _ hmem hpair
  have hcomp : (Prod.snd ∘ fun x : ℕ × ℕ × String => (x.1, x.2.2))
      = fun x : ℕ × ℕ × String => x.2.2 := rfl
  rw [List.map_map, hcomp] at hsub
  exact hsub

/-- With at least two sentences, every split piece is a non-empty string. -/
lemma sentenceSplit_ne_empty (text : String) (h2 : 2 ≤ (sentenceSplit text).length) :
    ∀ s ∈ sentenceSplit text, s ≠ "" := by
  intro s hs
  unfold sentenceSplit at hs h2
  obtain ⟨piece, hpiece, rfl⟩ := List.mem_map.mp hs
  apply mk_ne_empty
  have hl : trimChars text.toList ≠ [] := by
    intro h0
    rw [h0] at h2
    simp [splitGo] at h2
  exact splitGo_ne_nil (trimChars text.toList) false []
    (fun h => by cases h)
    (fun _ => ⟨fun he => absurd he hl, fun _ c => trimChars_last _ c⟩)
    piece hpiece

/-- Joining non-empty strings (at least one) is non-empty. -/
lemma joinSpace_ne_empty (sel : List String) (hne : sel ≠ [])
    (hall : ∀ s ∈ sel, s ≠ "") : joinSpace sel ≠ "" := by
  cases sel with
  | nil => exact absurd rfl hne
  | cons s rest =>
      unfold joinSpace
      apply mk_ne_empty
      simp only [List.map_cons]
      apply joinChars_ne_nil
      intro h0
      apply hall s (List.mem_cons_self _ _)
      obtain ⟨d⟩ := s
      have hd : d = [] := h0
      subst hd
      rfl

/-- Claim C8: whenever the sentence count of the (abbreviation-normalized)
abstract exceeds a positive `max_sentences`, the extractor's output is the
space-join of a strict subsequence of the abstract's sentences of length
exactly `max_sentences` (each output sentence appears verbatim, in original
order). -/
theorem C8_extractor_sublist (abstract : String) (max_sentences : ℕ)
    (hpos : 0 < max_sentences)
    (hlong : max_sentences < (sentenceSplit (normalizeAbbrev abstract)).length) :
    ∃ sel : List String,
      List.Sublist sel (sentenceSplit (normalizeAbbrev abstract))
      ∧ sel ≠ sentenceSplit (normalizeAbbrev abstract)
      ∧ sel.length = max_sentences
      ∧ extract_key_sentences abstract max_sentences = joinSpace sel := by
  refine ⟨(topOf (sentenceSplit (normalizeAbbrev abstract)) max_sentences).map
    (fun x => x.2.2), topOf_sublist _ _, ?_, ?_, ?_⟩
  · intro he
    have hlen := congrArg List.length he
    rw [List.length_map, topOf_length _ _ (le_of_lt hlong)] at hlen
    omega
  · rw [List.length_map, topOf_length _ _ (le_of_lt hlong)]
  · unfold extract_key_sentences
    dsimp only
    rw [if_neg (not_le.mpr hlong)]
    rw [if_neg ?hjoin]
    case hjoin =>
      apply joinSpace_ne_empty
      · intro h0
        have hlen := congrArg List.length h0
        rw [List.length_map, topOf_length _ _ (le_of_lt hlong)] at hlen
        simp at hlen
        omega
      · intro s hs
        have hmem := (topOf_sublist (sentenceSplit (normalizeAbbrev abstract))
          max_sentences).subset hs
        exact sentenceSplit_ne_empty _ (by omega) s hmem

/-- Witness for C8: a three-sentence abstract condensed to one sentence. -/
theorem C8_extractor_sublist_witness :
    ∃ sel : List String,
      List.Sublist sel
        (sentenceSplit (normalizeAbbrev "Hello there. We propose a method. It works well."))
      ∧ sel ≠ sentenceSplit (normalizeAbbrev "Hello there. We propose a method. It works well.")
      ∧ sel.length = 1
      ∧ extract_key_sentences "Hello there. We propose a method. It works well." 1
          = joinSpace sel :=
  C8_extractor_sublist "Hello there. We propose a method. It works well." 1
    (by norm_num) (by decide)
